import Mathlib

/- Shallow embedding of the ded-poc-v2 backend core: the connection
   normalizer, the availability prober, crawler pagination, catalog
   upsert and refresh, and the entity-resolver helpers.  Python strings
   are modeled as Lean strings, Python dicts as association lists, and
   HTTP or SQL effects as explicit environments describing each remote
   call outcome.  All definitions are executable. -/

set_option maxRecDepth 10000

/-! ## Python string primitives -/

/-- Characters stripped by Python str.strip (ASCII whitespace, including
vertical tab and form feed). -/
def isPySpace (c : Char) : Bool :=
  c = ' ' || c = '\t' || c = '\n' || c = '\r' || c = Char.ofNat 11 || c = Char.ofNat 12

/-- Python str.strip: drop leading and trailing whitespace. -/
def pyStrip (s : String) : String :=
  String.mk (((s.toList.dropWhile isPySpace).reverse.dropWhile isPySpace).reverse)

/-- Whether the first list occurs at the head of the second. -/
def leadMatch : List Char → List Char → Bool
  | [], _ => true
  | _ :: _, [] => false
  | c :: cs, h :: hs => c = h && leadMatch cs hs

/-- Whether the first list occurs contiguously anywhere in the second. -/
def subIn (needle : List Char) : List Char → Bool
  | [] => needle.isEmpty
  | h :: t => leadMatch needle (h :: t) || subIn needle t

/-- Python substring membership test (the in operator on strings). -/
def strContains (hay needle : String) : Bool :=
  subIn needle.toList hay.toList

/-- Digits of a Python int literal after the first digit: further digits,
with single underscores allowed between digits. -/
def pyDigits : List Char → Nat → Option Nat
  | [], acc => some acc
  | c :: rest, acc =>
    if c.isDigit then pyDigits rest (acc * 10 + (c.toNat - 48))
    else if c = '_' then
      match rest with
      | d :: rest2 => if d.isDigit then pyDigits rest2 (acc * 10 + (d.toNat - 48)) else none
      | [] => none
    else none

/-- Unsigned digit part of a Python int literal: at least one digit. -/
def pyIntCore (l : List Char) : Option Nat :=
  match l with
  | c :: rest => if c.isDigit then pyDigits rest (c.toNat - 48) else none
  | [] => none

/-- Python int(string): strip whitespace, optional sign, digit run;
returns none where Python raises ValueError. -/
def pyInt (s : String) : Option Int :=
  match (pyStrip s).toList with
  | '+' :: rest => (pyIntCore rest).map Int.ofNat
  | '-' :: rest => (pyIntCore rest).map (fun n => -(n : Int))
  | l => (pyIntCore l).map Int.ofNat

/-- Suffix after the first occurrence of a separator, or none when the
separator does not occur. -/
def afterFirst (sep : List Char) : List Char → Option (List Char)
  | [] => if sep.isEmpty then some [] else none
  | h :: t =>
    if leadMatch sep (h :: t) then some ((h :: t).drop sep.length)
    else afterFirst sep t

/-- Text up to the first occurrence of a separator (the whole list when
the separator is absent). -/
def upToFirst (sep : List Char) : List Char → List Char
  | [] => []
  | h :: t => if leadMatch sep (h :: t) then [] else h :: upToFirst sep t

/-- Split at every occurrence of a single separator character, as in
Python split with a one-character separator. -/
def splitChar (c : Char) : List Char → List (List Char)
  | [] => [[]]
  | h :: t =>
    if h = c then [] :: splitChar c t
    else
      match splitChar c t with
      | [] => [[h]]
      | x :: xs => (h :: x) :: xs

/-- Parts of a string before and after the first occurrence of a
separator, as in Python partition or split with maxsplit one; the second
component is empty when the separator is absent. -/
def splitFirst (s : String) (sep : String) : String × String :=
  match afterFirst sep.toList s.toList with
  | some rest => (String.mk (upToFirst sep.toList s.toList), String.mk rest)
  | none => (s, "")

/-- Key and remainder of a key=value fragment when an equals sign occurs,
as in Python split with maxsplit one. -/
def splitKV (kv : String) : Option (String × String) :=
  match afterFirst ['='] kv.toList with
  | some rest => some (String.mk (upToFirst ['='] kv.toList), String.mk rest)
  | none => none

/-- Lowercase a string character by character, as Python str.lower does
on ASCII text. -/
def pyLower (s : String) : String :=
  String.mk (s.toList.map Char.toLower)

/-- Association list assignment mirroring Python dict assignment: the
first occurrence of the key is replaced in place, otherwise the pair is
appended. -/
def setField {α : Type} : List (String × α) → String → α → List (String × α)
  | [], k, v => [(k, v)]
  | (k2, v2) :: t, k, v => if k2 = k then (k, v) :: t else (k2, v2) :: setField t k v

/-- Association list lookup at the first occurrence of a key, mirroring
Python dict get. -/
def lookupKV {α : Type} (k : String) : List (String × α) → Option α
  | [] => none
  | (k2, v) :: t => if k2 = k then some v else lookupKV k t

/-- Python or on two optional strings: the first operand unless it is
falsy (absent or empty). -/
def pyOr (a b : Option String) : Option String :=
  match a with
  | some s => if s = "" then b else some s
  | none => b

/-- Truthiness of an optional Python string: None and the empty string
are falsy. -/
def truthyS : Option String → Bool
  | some s => !s.toList.isEmpty
  | none => false

/-! ## Connection normalizer (fabric.py, normalize_from_connstring) -/

/-- Result record of the connection normalizer: server, database and
port. -/
structure ConnMeta where
  server : Option String
  database : Option String
  port : Int
deriving DecidableEq

/-- Embedding of fabric._normalize_from_connstring.  Host-only strings
(no equals sign) are stripped and split at the first comma into host and
numeric port; key=value strings are parsed into a dict keyed by
lowercased stripped keys, the server taken from data source or server,
the database from initial catalog or database, and the port parsed from
the text after the first comma of the server value when present. -/
def normalize_from_connstring (cs : Option String) : ConnMeta :=
  match cs with
  | none => ⟨none, none, 1433⟩
  | some c =>
    if c = "" then ⟨none, none, 1433⟩
    else if !(strContains c "=") then
      let server := pyStrip c
      if strContains server "," then
        let hp := splitFirst server ","
        ⟨some hp.1, none, (pyInt hp.2).getD 1433⟩
      else ⟨some server, none, 1433⟩
    else
      let parts := ((splitChar ';' c.toList).map String.mk).foldl (fun acc kv =>
        match splitKV kv with
        | some kvp => setField acc (pyLower (pyStrip kvp.1)) (pyStrip kvp.2)
        | none => acc) []
      let server := pyOr (lookupKV "data source" parts) (lookupKV "server" parts)
      let database := pyOr (lookupKV "initial catalog" parts) (lookupKV "database" parts)
      let port : Int :=
        match server with
        | some srv =>
          if !srv.toList.isEmpty && strContains srv "," then (pyInt (splitFirst srv ",").2).getD 1433
          else 1433
        | none => 1433
      ⟨server, database, port⟩

/-! ## Identifier validator (agent_graph.py, safe_ident) -/

/-- Characters of the strict identifier allow-list: ASCII letters, digits
and underscore. -/
def isSafeIdentChar (c : Char) : Bool :=
  ('A' ≤ c && c ≤ 'Z') || ('a' ≤ c && c ≤ 'z') || ('0' ≤ c && c ≤ '9') || c = '_'

/-- Embedding of agent_graph._safe_ident: strip the input, accept it
unchanged when it is a nonempty run of allow-listed characters, reject
with none otherwise. -/
def safe_ident (s : String) : Option String :=
  let t := pyStrip s
  if !t.toList.isEmpty && t.toList.all isSafeIdentChar then some t else none

/-! ## Crawler pagination (fabric.py, list_workspaces_live and list_items) -/

/-- One page returned by the remote listing endpoint: its items and the
optional continuation token. -/
structure Page where
  value : List String
  continuationToken : Option String
deriving DecidableEq

/-- Whether a page carries a truthy continuation token (Python treats
None and the empty string as absent). -/
def tokenPresent (p : Page) : Bool := truthyS p.continuationToken

/-- Embedding of the pagination loop shared by fabric.list_workspaces_live
and fabric.list_items: extend the accumulator with the items of each page
and continue while the page carries a truthy continuation token. -/
def paginate : List Page → List String
  | [] => []
  | p :: rest => p.value ++ (if tokenPresent p then paginate rest else [])

/-! ## Availability prober (fabric.py, check_workspace_availability) -/

/-- Keyword table of the outermost exception handler of the prober. -/
def kwTopLevel : List String :=
  ["capacity", "paused", "inactive", "suspended", "unavailable"]

/-- Keyword table of the handler around the inner endpoint re-listing and
connection-string fetch on the Fabric path. -/
def kwItemsProbe : List String :=
  ["capacity", "paused", "inactive", "suspended", "unavailable"]

/-- Keyword table of the handler around the trial query against a Fabric
datawarehouse endpoint. -/
def kwFabricDw : List String :=
  ["capacity", "paused", "inactive", "suspended", "unavailable", "timeout",
   "connection", "login", "authentication"]

/-- Keyword table of the handler around the trial query against a
non-datawarehouse target reached from the Fabric path. -/
def kwFabricOther : List String :=
  ["capacity", "paused", "inactive", "suspended", "unavailable", "timeout",
   "connection"]

/-- Keyword table of the handler around the trial query against a
traditional SQL Server endpoint. -/
def kwTraditional : List String :=
  ["capacity", "paused", "inactive", "suspended", "unavailable", "timeout"]

/-- Whether any keyword of the table occurs in the message. -/
def matchesAny (msg : String) (kws : List String) : Bool :=
  kws.any (fun kw => strContains msg kw)

/-- Classification of an error message against a keyword table, after
lowercasing as the prober does with str(e).lower(). -/
def classify_error (msg : String) (kws : List String) : String :=
  if matchesAny (pyLower msg) kws then "inactive" else "active"

/-- Substring extraction used by the prober on traditional connection
strings: the text between the first occurrence of the key and the next
semicolon, or none when the key is absent. -/
def extractAfterKey (s key : String) : Option String :=
  match afterFirst key.toList s.toList with
  | some rest => some (String.mk (upToFirst [';'] rest))
  | none => none

/-- Outcomes of the remote calls and the trial query made by one run of
check_workspace_availability: the first SQL-endpoint listing, the first
connection-string fetch, the items listing, the second SQL-endpoint
listing, the second connection-string fetch, and the SQL executor keyed
by server, database, port and statement.  An error value carries the
exception message. -/
structure ProbeEnv where
  sqlEndpointsA : Except String (Option (List String))
  connStringB : Except String (Option String)
  itemsC : Except String Unit
  sqlEndpointsD : Except String (Option (List String))
  connStringE : Except String (Option String)
  execQuery : String → String → Int → String → Except String Unit

/-- Embedding of fabric.check_workspace_availability over an explicit
environment of call outcomes, following the branch structure of the
source: listing failures classified by the top-level handler, an empty
or null endpoint listing mapped to inactive by the outer else, the
Fabric-domain path re-listing endpoints and running a SELECT 1 trial
query against the datawarehouse host with database master, and the
traditional path parsing Server and Database fragments before probing. -/
def check_workspace_availability (env : ProbeEnv) : String :=
  match env.sqlEndpointsA with
  | .error e => classify_error e kwTopLevel
  | .ok data =>
    match data with
    | some (_ :: _) =>
      match env.connStringB with
      | .error e => classify_error e kwTopLevel
      | .ok connB =>
        if truthyS connB then
          let cs0 := connB.getD ""
          if strContains cs0 "datawarehouse.fabric.microsoft.com"
              || strContains cs0 "onelake.dfs.fabric.microsoft.com" then
            match env.itemsC with
            | .error _ => "inactive"
            | .ok _ =>
              match env.sqlEndpointsD with
              | .error e => classify_error e kwItemsProbe
              | .ok sqlData =>
                match sqlData with
                | some (_ :: _) =>
                  match env.connStringE with
                  | .error e => classify_error e kwItemsProbe
                  | .ok connE =>
                    if truthyS connE then
                      let cs := connE.getD ""
                      if strContains cs "datawarehouse.fabric.microsoft.com" then
                        match env.execQuery (pyStrip cs) "master" 1433 "SELECT 1" with
                        | .ok _ => "active"
                        | .error e => classify_error e kwFabricDw
                      else
                        let server := extractAfterKey cs "Server="
                        let database := extractAfterKey cs "Database="
                        if truthyS server && truthyS database then
                          match env.execQuery (server.getD "") (database.getD "") 1433 "SELECT 1" with
                          | .ok _ => "active"
                          | .error e => classify_error e kwFabricOther
                        else "active"
                    else "inactive"
                | _ => "inactive"
          else
            let server := extractAfterKey cs0 "Server="
            let database := extractAfterKey cs0 "Database="
            if truthyS server && truthyS database then
              match env.execQuery (server.getD "") (database.getD "") 1433 "SELECT 1" with
              | .ok _ => "active"
              | .error e => classify_error e kwTraditional
            else "active"
        else "inactive"
    | _ => "inactive"

/-- Environment of a reachable workspace whose SQL-endpoint listing
succeeds with an empty value list: no SQL-capable items at all. -/
def envNoEndpoints : ProbeEnv :=
  { sqlEndpointsA := .ok (some [])
  , connStringB := .ok none
  , itemsC := .ok ()
  , sqlEndpointsD := .ok none
  , connStringE := .ok none
  , execQuery := fun _ _ _ _ => .ok () }

/-- Environment reaching the trial query against a Fabric datawarehouse
endpoint, with the query failing with the given message. -/
def envFabricTrial (msg : String) : ProbeEnv :=
  { sqlEndpointsA := .ok (some ["ep1"])
  , connStringB := .ok (some "abc.datawarehouse.fabric.microsoft.com")
  , itemsC := .ok ()
  , sqlEndpointsD := .ok (some ["ep1"])
  , connStringE := .ok (some "abc.datawarehouse.fabric.microsoft.com")
  , execQuery := fun _ _ _ _ => .error msg }

/-! ## Connection resolver sub-calls (fabric.py, get_json_2xx and the
per-kind connection-string fetchers) -/

/-- An HTTP response: its status code and its JSON body modeled as an
association list of string fields when the body is a JSON object, none
otherwise. -/
structure HttpResp where
  status : Nat
  body : Option (List (String × String))
deriving DecidableEq

/-- Embedding of fabric._get_json_2xx: 401 and 403 are logged and mapped
to none, 404 is mapped to none, any other non-2xx status raises, and a
2xx body is returned when it is a JSON object and replaced by none
otherwise. -/
def get_json_2xx (r : HttpResp) : Except String (Option (List (String × String))) :=
  if r.status = 401 ∨ r.status = 403 then .ok none
  else if r.status = 404 then .ok none
  else if ¬(200 ≤ r.status ∧ r.status < 300) then .error "HTTPStatusError"
  else .ok r.body

/-- One warehouse shape attempt: the connection string when the body is
a truthy JSON object containing the key, otherwise none so the caller
can try the next shape. -/
def whAttempt (js : Option (List (String × String))) : Option String :=
  match js with
  | some d => if d.isEmpty then none else lookupKV "connectionString" d
  | none => none

/-- Embedding of fabric.get_warehouse_connection_string: try the
connectionString shape then the getConnectionString shape through
get_json_2xx, returning the first body that carries the key. -/
def get_warehouse_connection_string (r1 r2 : HttpResp) : Except String (Option String) :=
  match get_json_2xx r1 with
  | .error e => .error e
  | .ok js1 =>
    match whAttempt js1 with
    | some v => .ok (some v)
    | none =>
      match get_json_2xx r2 with
      | .error e => .error e
      | .ok js2 =>
        match whAttempt js2 with
        | some v => .ok (some v)
        | none => .ok none

/-- Embedding of fabric.get_sqlendpoint_connection_string: only 404 is
mapped to none; every other non-2xx status, including 401 and 403, is
raised by raise_for_status; a 2xx JSON object yields its
connectionString field. -/
def get_sqlendpoint_connection_string (r : HttpResp) : Except String (Option String) :=
  if r.status = 404 then .ok none
  else if ¬(200 ≤ r.status ∧ r.status < 300) then .error "HTTPStatusError"
  else
    match r.body with
    | some d => .ok (lookupKV "connectionString" d)
    | none => .error "AttributeError"

/-! ## Catalog store: schema refresh (dbmeta.py, refresh_schemata over
catalog.upsert.upsert_schemas) -/

/-- A Schema row of the catalog store. -/
structure SchemaRow where
  workspace_id : String
  database_id : String
  schema_name : String
  sampled_at : String
deriving DecidableEq

/-- Composite primary key of a Schema row. -/
def schemaKey (r : SchemaRow) : String × String × String :=
  (r.workspace_id, r.database_id, r.schema_name)

/-- One step of catalog.upsert.upsert_schemas on the session working
set: the row with the same composite key is overwritten in place, and a
row with a fresh key is added. -/
def upsertSchemaRow : List SchemaRow → SchemaRow → List SchemaRow
  | [], r => [r]
  | x :: t, r => if schemaKey x = schemaKey r then r :: t else x :: upsertSchemaRow t r

/-- Embedding of catalog.upsert.upsert_schemas: fold the incoming rows
over the session working set. -/
def upsert_schemas (working : List SchemaRow) (rows : List SchemaRow) : List SchemaRow :=
  rows.foldl upsertSchemaRow working

/-- Whether a Schema row belongs to the scope of one workspace and
database pair. -/
def inSchemaScope (ws db : String) (r : SchemaRow) : Bool :=
  decide (r.workspace_id = ws) && decide (r.database_id = db)

/-- Embedding of routers.dbmeta.refresh_schemata.  The session deletes
the scope rows, then the live fetch runs: a fetch failure raises before
commit, so the session is closed without committing and the committed
store is unchanged; on success the fetched names are upserted into the
working set and the whole unit is committed.  The session
semantics (commit makes the working set durable, closing without commit
rolls back) follow the persistence engine that db.get_session wraps. -/
def refresh_schemata (committed : List SchemaRow) (ws db : String)
    (fetched : Except String (List String)) (now : String) :
    List SchemaRow × Except String Nat :=
  let working := committed.filter (fun r => !inSchemaScope ws db r)
  match fetched with
  | .error e => (committed, .error e)
  | .ok names =>
    (upsert_schemas working (names.map (fun s => ⟨ws, db, s, now⟩)), .ok names.length)

/-! ## Catalog store: endpoint upsert (catalog/upsert.py,
upsert_sql_endpoints) -/

/-- A Python value stored in a row dict: a string, an integer, or null. -/
inductive PyVal where
  | str : String → PyVal
  | int : Int → PyVal
  | null : PyVal
deriving DecidableEq

/-- A row dict: an association list from field names to values. -/
abbrev PyDict := List (String × PyVal)

/-- Application of every incoming field to a stored row with setattr, in
incoming order. -/
def applyFields {α : Type} (old incoming : List (String × α)) : List (String × α) :=
  incoming.foldl (fun acc kv => setField acc kv.1 kv.2) old

/-- Overwrite the first stored row whose primary key equals the given
key with the incoming fields applied to it. -/
def updateByKey : List PyDict → PyVal → PyDict → List PyDict
  | [], _, _ => []
  | x :: t, kid, r =>
    if lookupKV "database_id" x = some kid then applyFields x r :: t
    else x :: updateByKey t kid r

/-- Embedding of catalog.upsert.upsert_sql_endpoints: for each incoming
row, read its database_id (a missing key raises), look the key up in the
store, overwrite every provided field of the found row in place, or add
the row when the key is absent. -/
def upsert_sql_endpoints (store : List PyDict) (rows : List PyDict) :
    Except String (List PyDict) :=
  rows.foldlM (fun acc r =>
    match lookupKV "database_id" r with
    | none => Except.error "KeyError"
    | some kid =>
      match acc.find? (fun x => decide (lookupKV "database_id" x = some kid)) with
      | some _ => Except.ok (updateByKey acc kid r)
      | none => Except.ok (acc ++ [r])) store

/-! ## Endpoint deduplication (fabric.py, dedupe_prefer_connected) -/

/-- A resolved endpoint row as produced by
resolve_sql_endpoints_for_workspace, with the fields the deduplication
reads and the database id to tell rows apart. -/
structure EpRow where
  kind : Option String
  name : Option String
  server : Option String
  connection_string : Option String
  database_id : String
deriving DecidableEq

/-- Deduplication key: kind and name with falsy values replaced by the
empty string. -/
def epKey (r : EpRow) : String × String :=
  ((if truthyS r.kind then r.kind.getD "" else ""),
   (if truthyS r.name then r.name.getD "" else ""))

/-- Score of a row: one point for a truthy server, one for a truthy raw
connection string, compared lexicographically. -/
def epScore (r : EpRow) : Nat × Nat :=
  ((if truthyS r.server then 1 else 0), (if truthyS r.connection_string then 1 else 0))

/-- Strict lexicographic comparison of two scores, as Python compares
the score tuples. -/
def scoreGT (x y : Nat × Nat) : Bool :=
  decide (y.1 < x.1) || (decide (x.1 = y.1) && decide (y.2 < x.2))

/-- Replace the value stored at a key of the best dict, keeping its
position, as Python dict assignment to an existing key does. -/
def replaceVal : List ((String × String) × EpRow) → (String × String) → EpRow →
    List ((String × String) × EpRow)
  | [], _, _ => []
  | e :: t, k, r => if e.1 = k then (k, r) :: t else e :: replaceVal t k r

/-- One iteration of the deduplication loop: a row with a new key is
inserted, and a row whose score strictly beats the current holder of its
key replaces it. -/
def dedupeStep (best : List ((String × String) × EpRow)) (r : EpRow) :
    List ((String × String) × EpRow) :=
  match best.find? (fun e => decide (e.1 = epKey r)) with
  | none => best ++ [(epKey r, r)]
  | some cur => if scoreGT (epScore r) (epScore cur.2) then replaceVal best (epKey r) r else best

/-- Embedding of fabric._dedupe_prefer_connected: fold the rows through
the best dict and return its values. -/
def dedupe_prefer_connected (rows : List EpRow) : List EpRow :=
  (rows.foldl dedupeStep []).map Prod.snd

/-- The specification of the kept row for one key, written from the
spec: highest score wins and the first-seen row is kept on exact ties,
expressed as a left fold that replaces the holder only on a strictly
greater score. -/
def specStep (acc : Option EpRow) (r : EpRow) : Option EpRow :=
  match acc with
  | none => some r
  | some b => if scoreGT (epScore r) (epScore b) then some r else some b

/-- Best row of a list under the deterministic scoring of the spec. -/
def specBest (l : List EpRow) : Option EpRow := l.foldl specStep none

/-- Value stored at a key of the best dict. -/
def valAt (b : List ((String × String) × EpRow)) (k : String × String) : Option EpRow :=
  (b.find? (fun e => decide (e.1 = k))).map Prod.snd

/-- Well-formedness of the best dict: keys are distinct and every stored
row lies at its own key. -/
def WFbest (b : List ((String × String) × EpRow)) : Prop :=
  (b.map Prod.fst).Nodup ∧ ∀ e ∈ b, epKey e.2 = e.1

/-! ## Entity resolver fuzzy matching (agent_graph.py, norm and
best_match over difflib.get_close_matches) -/

/-- Characters collapsed by the normalizer regex: whitespace, hyphen,
underscore and slash. -/
def isCollapseChar (c : Char) : Bool :=
  c = ' ' || c = '\t' || c = '\n' || c = '\r' || c = Char.ofNat 11 || c = Char.ofNat 12
    || c = '-' || c = '_' || c = '/'

/-- Replace every maximal run of collapse characters with a single
space; the flag records whether the previous character was part of a
run. -/
def collapseRuns : Bool → List Char → List Char
  | _, [] => []
  | inRun, c :: rest =>
    if isCollapseChar c then
      if inRun then collapseRuns true rest else ' ' :: collapseRuns true rest
    else c :: collapseRuns false rest

/-- Embedding of agent_graph._norm: strip, compatibility-normalize,
lowercase, collapse separator runs to single spaces.  The Unicode
compatibility normalization step is the identity on the ASCII texts this
resolver handles, and is modeled as such. -/
def pyNorm (s : String) : String :=
  String.mk (collapseRuns false ((pyStrip s).toList.map Char.toLower))

/-- Length of the common leading run of two lists. -/
def commonRun : List Char → List Char → Nat
  | x :: xs, y :: ys => if x = y then commonRun xs ys + 1 else 0
  | _, _ => 0

/-- Longest matching block of the two sequences inside the index windows
alo to ahi and blo to bhi: the triple of start positions and size with
maximal size, earliest start in the first sequence and then earliest
start in the second, as difflib.SequenceMatcher.find_longest_match
documents for junk-free input. -/
def findLongestMatch (a b : List Char) (alo ahi blo bhi : Nat) : Nat × Nat × Nat :=
  (List.range' alo (ahi - alo)).foldl (fun best i =>
    (List.range' blo (bhi - blo)).foldl (fun best j =>
      let k := min (commonRun (a.drop i) (b.drop j)) (min (ahi - i) (bhi - j))
      if best.2.2 < k then (i, j, k) else best) best)
    (alo, blo, 0)

/-- Total size of all matching blocks found by the recursive block
decomposition of difflib.SequenceMatcher.get_matching_blocks, with an
explicit fuel argument bounding the recursion depth. -/
def matchedTotalGo : Nat → List Char → List Char → Nat → Nat → Nat → Nat → Nat
  | 0, _, _, _, _, _, _ => 0
  | fuel + 1, a, b, alo, ahi, blo, bhi =>
    let m := findLongestMatch a b alo ahi blo bhi
    if m.2.2 = 0 then 0
    else
      matchedTotalGo fuel a b alo m.1 blo m.2.1 + m.2.2
        + matchedTotalGo fuel a b (m.1 + m.2.2) ahi (m.2.1 + m.2.2) bhi

/-- Total matched size of two character sequences, with fuel ample for
the recursion (each level consumes at least one position of each side). -/
def matchedTotal (a b : List Char) : Nat :=
  matchedTotalGo (a.length + b.length + 1) a b 0 a.length 0 b.length

/-- An exact nonnegative rational value, kept as an unreduced numerator
and positive denominator pair; difflib's floating point ratios are
modeled by these exact values, compared by cross multiplication. -/
structure Ratio where
  num : Nat
  den : Nat
deriving DecidableEq

/-- Value order on ratios: less-or-equal by cross multiplication. -/
def ratioLE (a b : Ratio) : Prop := a.num * b.den ≤ b.num * a.den

/-- Value order on ratios: strictly-less by cross multiplication. -/
def ratioLT (a b : Ratio) : Prop := a.num * b.den < b.num * a.den

/-- Value equality of ratios by cross multiplication. -/
def ratioEQ (a b : Ratio) : Prop := a.num * b.den = b.num * a.den

instance (a b : Ratio) : Decidable (ratioLE a b) :=
  inferInstanceAs (Decidable (a.num * b.den ≤ b.num * a.den))

instance (a b : Ratio) : Decidable (ratioLT a b) :=
  inferInstanceAs (Decidable (a.num * b.den < b.num * a.den))

instance (a b : Ratio) : Decidable (ratioEQ a b) :=
  inferInstanceAs (Decidable (a.num * b.den = b.num * a.den))

/-- Lexicographic comparison of character lists by code point, the order
Python uses on strings. -/
def lexLtChars : List Char → List Char → Bool
  | [], [] => false
  | [], _ :: _ => true
  | _ :: _, [] => false
  | a :: as, b :: bs => if a < b then true else if a = b then lexLtChars as bs else false

/-- Python string less-than. -/
def strLT (a b : String) : Prop := lexLtChars a.toList b.toList = true

instance (a b : String) : Decidable (strLT a b) :=
  inferInstanceAs (Decidable (lexLtChars a.toList b.toList = true))

/-- The ratio formula of difflib: twice the matches over the total
length, and one when both sequences are empty. -/
def calcRatio (m len : Nat) : Ratio :=
  if len = 0 then ⟨1, 1⟩ else ⟨2 * m, len⟩

/-- Size of the multiset intersection of two character lists, as
difflib.SequenceMatcher.quick_ratio counts it. -/
def multisetInter (a b : List Char) : Nat :=
  (a.dedup.map (fun c => min (a.count c) (b.count c))).sum

/-- Similarity ratio of candidate text a against query text b, following
difflib.SequenceMatcher.ratio with a as seq1 and b as seq2. -/
def ratioQ (a b : String) : Ratio :=
  calcRatio (matchedTotal a.toList b.toList) (a.toList.length + b.toList.length)

/-- Upper-bound gate quick_ratio of difflib. -/
def quickRatioQ (a b : String) : Ratio :=
  calcRatio (multisetInter a.toList b.toList) (a.toList.length + b.toList.length)

/-- Upper-bound gate real_quick_ratio of difflib. -/
def realQuickRatioQ (a b : String) : Ratio :=
  calcRatio (min a.toList.length b.toList.length) (a.toList.length + b.toList.length)

/-- The three acceptance gates of difflib.get_close_matches for one
candidate against the query word. -/
def passesGates (word x : String) (cutoff : Ratio) : Bool :=
  decide (ratioLE cutoff (realQuickRatioQ x word))
    && decide (ratioLE cutoff (quickRatioQ x word))
    && decide (ratioLE cutoff (ratioQ x word))

/-- The larger of two scored pairs under the lexicographic order on
ratio value then candidate text, keeping the first on exact ties. -/
def pairMax (p q : Ratio × String) : Ratio × String :=
  if ratioLT p.1 q.1 ∨ (ratioEQ p.1 q.1 ∧ strLT p.2 q.2) then q else p

/-- Largest scored pair under the lexicographic order on ratio value
then candidate text, keeping the first element on exact ties, as
heapq.nlargest with n equal to one does on score and string pairs. -/
def maxScored : List (Ratio × String) → Option (Ratio × String)
  | [] => none
  | p :: t => some (t.foldl pairMax p)

/-- Embedding of difflib.get_close_matches with n equal to one: score
every possibility that passes the three gates, and return the top pair
as a singleton list, or the empty list when nothing passes.  The model
uses empty junk sets, which is exact whenever the query side is shorter
than the autojunk threshold of two hundred characters. -/
def get_close_matches1 (word : String) (possibilities : List String) (cutoff : Ratio) :
    List String :=
  let scored := possibilities.filterMap (fun x =>
    if passesGates word x cutoff then some (ratioQ x word, x) else none)
  match maxScored scored with
  | none => []
  | some p => [p.2]

/-- Embedding of agent_graph._best_match: falsy inputs short-circuit to
none; otherwise the query and candidates are normalized, the single
close match above the cutoff of four fifths is computed, and the first
original candidate whose normalization equals that match is returned. -/
def best_match (name : String) (candidates : List String) (cutoff : Ratio := ⟨4, 5⟩) :
    Option String :=
  if name = "" ∨ candidates = [] then none
  else
    match get_close_matches1 (pyNorm name) (candidates.map pyNorm) cutoff with
    | [] => none
    | m :: _ => candidates.find? (fun c => decide (pyNorm c = m))

/-! ## Theorems -/

/-- C1 counterexample: on the key=value example of the spec the
normalizer keeps the raw data-source text tcp colon h comma 1433 as the
server instead of the bare host h claimed by the spec. -/
theorem normalize_kv_counterexample :
    normalize_from_connstring (some "Data Source=tcp:h,1433;Initial Catalog=DB;")
      = ⟨some "tcp:h,1433", some "DB", 1433⟩ ∧
    normalize_from_connstring (some "Data Source=tcp:h,1433;Initial Catalog=DB;")
      ≠ ⟨some "h", some "DB", 1433⟩ := by
  exact ⟨by decide, by decide⟩

/-- C1 amended: the host-only and null round-trip examples hold as the
spec states them; in the key-value form the port is parsed from the text
after the first comma of the extracted server value, but the server
string itself is returned unmodified, with its comma-port suffix and any
tcp marker intact. -/
theorem normalize_roundtrip_amended :
    normalize_from_connstring (some "myhost.example.com,1500")
      = ⟨some "myhost.example.com", none, 1500⟩ ∧
    normalize_from_connstring (some "Data Source=tcp:h,1433;Initial Catalog=DB;")
      = ⟨some "tcp:h,1433", some "DB", 1433⟩ ∧
    normalize_from_connstring (some "Data Source=tcp:h,1500;Initial Catalog=DB;")
      = ⟨some "tcp:h,1500", some "DB", 1500⟩ ∧
    normalize_from_connstring none = ⟨none, none, 1433⟩ := by
  exact ⟨by decide, by decide, by decide, by decide⟩

/-- C2: when the SQL-endpoint listing succeeds but returns an empty value
list, the prober classifies the workspace as inactive, because the outer
condition requiring a nonempty value list sends the empty case to the
else branch; the active branch guarded by the inner emptiness test is
unreachable.  This contradicts the spec and the source comment on that
dead branch. -/
theorem check_availability_no_sql_items :
    check_workspace_availability envNoEndpoints = "inactive" := by
  rfl

/-- C4 counterexample: a trial-query failure on the Fabric datawarehouse
path whose message is timeout, which contains none of the five claimed
outage keywords, is still classified inactive. -/
theorem fabric_trial_keywords_counterexample :
    check_workspace_availability (envFabricTrial "timeout") = "inactive" ∧
    matchesAny "timeout" ["capacity", "paused", "suspended", "inactive", "unavailable"] = false := by
  exact ⟨by decide, by decide⟩

/-- C4 amended: when the trial query against a Fabric datawarehouse
endpoint fails, the prober returns inactive exactly when the lowercased
failure message contains one of the nine keywords capacity, paused,
inactive, suspended, unavailable, timeout, connection, login,
authentication, and returns active otherwise. -/
theorem fabric_trial_keywords_amended (msg : String) :
    check_workspace_availability (envFabricTrial msg)
      = (if matchesAny (pyLower msg)
            ["capacity", "paused", "inactive", "suspended", "unavailable", "timeout",
             "connection", "login", "authentication"] then "inactive" else "active") := by
  rfl

/-- C3 counterexample: a 401 response to the sqlendpoint
connection-string call is propagated as an HTTP error, not mapped to a
null result, so the claim fails for that sub-call shape. -/
theorem sqlendpoint_perm_denied_counterexample :
    get_sqlendpoint_connection_string ⟨401, some []⟩ = .error "HTTPStatusError" ∧
    get_sqlendpoint_connection_string ⟨401, some []⟩ ≠ .ok none := by
  refine ⟨rfl, fun h => ?_⟩
  rw [show get_sqlendpoint_connection_string ⟨401, some []⟩
        = Except.error "HTTPStatusError" from rfl] at h
  exact Except.noConfusion h

/-- C3 amended: every sub-call routed through get_json_2xx (the
warehouse, lakehouse and sqldatabase shapes) maps a 401 or 403 response
to a null body so the caller can try the next strategy, and the
composed warehouse resolver returns a null connection string when both
of its shapes are denied; the sqlendpoint connection-string call,
however, maps only 404 to null and propagates 401 and 403 as errors. -/
theorem perm_denied_amended (r1 r2 : HttpResp)
    (h1 : r1.status = 401 ∨ r1.status = 403) (h2 : r2.status = 401 ∨ r2.status = 403) :
    get_json_2xx r1 = .ok none ∧
    get_warehouse_connection_string r1 r2 = .ok none ∧
    get_sqlendpoint_connection_string r1 = .error "HTTPStatusError" := by
  obtain ⟨s1, b1⟩ := r1
  obtain ⟨s2, b2⟩ := r2
  simp only [HttpResp.mk.injEq] at *
  have g1 : get_json_2xx ⟨s1, b1⟩ = .ok none := by
    rcases h1 with h | h <;> subst h <;> simp [get_json_2xx]
  have g2 : get_json_2xx ⟨s2, b2⟩ = .ok none := by
    rcases h2 with h | h <;> subst h <;> simp [get_json_2xx]
  refine ⟨g1, ?_, ?_⟩
  · simp [get_warehouse_connection_string, g1, g2, whAttempt]
  · rcases h1 with h | h <;> subst h <;> simp [get_sqlendpoint_connection_string]

/-- C3 amended witness at concrete denied responses. -/
theorem perm_denied_amended_witness :
    get_json_2xx ⟨401, none⟩ = .ok none ∧
    get_warehouse_connection_string ⟨401, none⟩ ⟨403, some []⟩ = .ok none ∧
    get_sqlendpoint_connection_string ⟨401, none⟩ = .error "HTTPStatusError" :=
  perm_denied_amended ⟨401, none⟩ ⟨403, some []⟩ (Or.inl rfl) (Or.inr rfl)

/-- C9: the identifier validator accepts a string exactly when its
stripped form is nonempty and consists only of allow-listed characters,
and in that case it returns the stripped identifier itself, never a
sanitized variant; the spec examples dbo and the injection attempt
behave as claimed. -/
theorem safe_ident_spec :
    (∀ s v, safe_ident s = some v ↔
      (v = pyStrip s ∧ (pyStrip s).toList ≠ [] ∧
        (pyStrip s).toList.all isSafeIdentChar = true)) ∧
    safe_ident "dbo" = some "dbo" ∧
    safe_ident "dbo;DROP TABLE x" = none := by
  refine ⟨?_, by decide, by decide⟩
  intro s v
  simp only [safe_ident]
  split
  next h =>
    rw [Bool.and_eq_true] at h
    obtain ⟨h1, h2⟩ := h
    constructor
    · intro hv
      refine ⟨(Option.some.inj hv).symm, ?_, h2⟩
      intro hne
      rw [hne] at h1
      simp at h1
    · rintro ⟨rfl, _, _⟩
      rfl
  next h =>
    constructor
    · intro hv
      exact Option.noConfusion hv
    · rintro ⟨rfl, hne, hall⟩
      rw [Bool.and_eq_true] at h
      exact absurd ⟨by simpa using hne, hall⟩ h

/-- C10: when every page except the last carries a truthy continuation
token and the last page carries none, the pagination loop returns the
concatenation of the pages' item lists in page order. -/
theorem paginate_concat (pages : List Page)
    (hmid : ∀ p ∈ pages.dropLast, tokenPresent p = true)
    (hlast : ∀ p ∈ pages, pages.getLast? = some p → tokenPresent p = false) :
    paginate pages = (pages.map Page.value).flatten := by
  induction pages with
  | nil => rfl
  | cons p rest ih =>
    cases rest with
    | nil =>
      have hp : tokenPresent p = false :=
        hlast p (List.mem_cons_self p []) rfl
      simp [paginate, hp]
    | cons q rest2 =>
      have hp : tokenPresent p = true := by
        apply hmid p
        exact List.mem_cons_self p ((q :: rest2).dropLast)
      have h2 : paginate (q :: rest2) = ((q :: rest2).map Page.value).flatten := by
        apply ih
        · intro x hx
          exact hmid x (List.mem_cons_of_mem p hx)
        · intro x hxm hx
          apply hlast x (List.mem_cons_of_mem p hxm)
          rw [List.getLast?_cons_cons]
          exact hx
      have e1 : paginate (p :: q :: rest2)
          = p.value ++ (if tokenPresent p then paginate (q :: rest2) else []) := rfl
      rw [e1, if_pos hp, h2]
      rfl

/-- C10 witness: three concrete pages, the first two with continuation
tokens, concatenate in order. -/
theorem paginate_concat_witness :
    paginate [⟨["a", "b"], some "t1"⟩, ⟨["c"], some "t2"⟩, ⟨["d"], none⟩]
      = ["a", "b", "c", "d"] := by
  rw [paginate_concat [⟨["a", "b"], some "t1"⟩, ⟨["c"], some "t2"⟩, ⟨["d"], none⟩]
        (by decide) (by decide)]
  rfl

/-- Upserting a row whose key matches nothing in the working set appends
it. -/
theorem upsertSchemaRow_fresh (l : List SchemaRow) (r : SchemaRow)
    (h : ∀ x ∈ l, schemaKey x ≠ schemaKey r) : upsertSchemaRow l r = l ++ [r] := by
  induction l with
  | nil => rfl
  | cons x t ih =>
    simp only [upsertSchemaRow, if_neg (h x (List.mem_cons_self x t)), List.cons_append]
    rw [ih (fun y hy => h y (List.mem_cons_of_mem x hy))]

/-- Upserting rows with pairwise distinct keys, all fresh for the
working set, appends them in order. -/
theorem upsert_schemas_fresh (ws db now : String) :
    ∀ (names : List String) (working : List SchemaRow),
      names.Nodup →
      (∀ x ∈ working, ∀ s ∈ names, schemaKey x ≠ (ws, db, s)) →
      upsert_schemas working (names.map fun s => ⟨ws, db, s, now⟩)
        = working ++ names.map fun s => ⟨ws, db, s, now⟩ := by
  intro names
  induction names with
  | nil => intro working _ _; simp [upsert_schemas]
  | cons s t ih =>
    intro working hnd hfr
    simp only [upsert_schemas, List.map_cons, List.foldl_cons]
    rw [upsertSchemaRow_fresh working ⟨ws, db, s, now⟩
      (fun x hx => hfr x hx s (List.mem_cons_self s t))]
    have hfr2 : ∀ x ∈ working ++ [(⟨ws, db, s, now⟩ : SchemaRow)], ∀ s2 ∈ t,
        schemaKey x ≠ (ws, db, s2) := by
      intro x hx s2 hs2
      rcases List.mem_append.mp hx with hxw | hxs
      · exact hfr x hxw s2 (List.mem_cons_of_mem s hs2)
      · have hx2 : x = ⟨ws, db, s, now⟩ := by simpa using hxs
        subst hx2
        intro heq
        have hs : s = s2 := by
          simpa [schemaKey, Prod.ext_iff] using heq
        subst hs
        exact (List.nodup_cons.mp hnd).1 hs2
    have ih2 := ih (working ++ [⟨ws, db, s, now⟩]) (List.Nodup.of_cons hnd) hfr2
    rw [show List.foldl upsertSchemaRow (working ++ [(⟨ws, db, s, now⟩ : SchemaRow)])
          (t.map fun s2 => ⟨ws, db, s2, now⟩)
        = upsert_schemas (working ++ [⟨ws, db, s, now⟩]) (t.map fun s2 => ⟨ws, db, s2, now⟩)
      from rfl, ih2]
    simp

/-- C5: one schema refresh is atomic.  When the live fetch fails after
the scope delete was issued in the session, the session is closed
without commit and the committed store is exactly the pre-refresh state;
when the fetch succeeds, the committed result is the store with the
scope rows removed and exactly the freshly fetched rows appended, so no
state with the scope deleted and nothing re-inserted is ever committed. -/
theorem refresh_schemata_atomic :
    (∀ committed ws db e now,
        (refresh_schemata committed ws db (.error e) now).1 = committed) ∧
    (∀ committed ws db names now, names.Nodup →
        (refresh_schemata committed ws db (.ok names) now).1
          = committed.filter (fun r => !inSchemaScope ws db r)
              ++ names.map fun s => ⟨ws, db, s, now⟩) := by
  constructor
  · intro committed ws db e now
    rfl
  · intro committed ws db names now hnd
    show upsert_schemas (committed.filter fun r => !inSchemaScope ws db r)
        (names.map fun s => ⟨ws, db, s, now⟩) = _
    apply upsert_schemas_fresh ws db now names _ hnd
    intro x hx s _ heq
    have hsc : (!inSchemaScope ws db x) = true := (List.mem_filter.mp hx).2
    have hx1 : x.workspace_id = ws ∧ x.database_id = db := by
      simpa [schemaKey, Prod.ext_iff] using congrArg (fun p => (p.1, p.2.1)) heq
    rw [Bool.not_eq_true', inSchemaScope] at hsc
    simp [hx1.1, hx1.2] at hsc

/-- C5 witness: a concrete refresh that fails leaves the two committed
rows untouched, and the same refresh succeeding replaces exactly the
scope rows. -/
theorem refresh_schemata_atomic_witness :
    (refresh_schemata [⟨"w", "d", "old", "t0"⟩, ⟨"w2", "d", "keep", "t0"⟩] "w" "d"
        (.error "boom") "t1").1
      = [⟨"w", "d", "old", "t0"⟩, ⟨"w2", "d", "keep", "t0"⟩] ∧
    (refresh_schemata [⟨"w", "d", "old", "t0"⟩, ⟨"w2", "d", "keep", "t0"⟩] "w" "d"
        (.ok ["s1", "s2"]) "t1").1
      = [⟨"w2", "d", "keep", "t0"⟩, ⟨"w", "d", "s1", "t1"⟩, ⟨"w", "d", "s2", "t1"⟩] := by
  constructor
  · exact refresh_schemata_atomic.1 [⟨"w", "d", "old", "t0"⟩, ⟨"w2", "d", "keep", "t0"⟩]
      "w" "d" "boom" "t1"
  · rw [refresh_schemata_atomic.2 [⟨"w", "d", "old", "t0"⟩, ⟨"w2", "d", "keep", "t0"⟩]
      "w" "d" ["s1", "s2"] "t1" (by decide)]
    rfl

/-- Looking up the assigned key after a dict assignment yields the new
value. -/
theorem lookupKV_setField_self {α : Type} (l : List (String × α)) (k : String) (v : α) :
    lookupKV k (setField l k v) = some v := by
  induction l with
  | nil => simp [setField, lookupKV]
  | cons kv t ih =>
    obtain ⟨k2, v2⟩ := kv
    by_cases h : k2 = k
    · subst h
      simp [setField, lookupKV]
    · simp [setField, lookupKV, h, ih]

/-- Looking up any other key after a dict assignment is unchanged. -/
theorem lookupKV_setField_other {α : Type} (l : List (String × α)) (k k2 : String) (v : α)
    (h : k2 ≠ k) : lookupKV k2 (setField l k v) = lookupKV k2 l := by
  induction l with
  | nil => simp [setField, lookupKV, Ne.symm h]
  | cons kv t ih =>
    obtain ⟨k3, v3⟩ := kv
    by_cases h3 : k3 = k
    · subst h3
      simp [setField, lookupKV, Ne.symm h]
    · by_cases h4 : k3 = k2
      · simp [setField, lookupKV, h3, h4, h]
      · simp [setField, lookupKV, h3, h4, ih]

/-- Applying incoming fields that do not mention a key leaves that key
unchanged. -/
theorem lookupKV_applyFields_not_mem {α : Type} (incoming : List (String × α)) :
    ∀ (old : List (String × α)) (f : String), f ∉ incoming.map Prod.fst →
      lookupKV f (applyFields old incoming) = lookupKV f old := by
  induction incoming with
  | nil => intro old f _; rfl
  | cons kv t ih =>
    intro old f hf
    obtain ⟨k, v⟩ := kv
    simp only [List.map_cons, List.mem_cons, not_or] at hf
    show lookupKV f (applyFields (setField old k v) t) = _
    rw [ih (setField old k v) f hf.2]
    exact lookupKV_setField_other old k f v hf.1

/-- Every field provided by the incoming row ends up in the updated row
with the provided value, when the incoming field names are distinct. -/
theorem lookupKV_applyFields_some {α : Type} (incoming : List (String × α)) :
    ∀ (old : List (String × α)) (f : String) (v : α),
      (incoming.map Prod.fst).Nodup → lookupKV f incoming = some v →
      lookupKV f (applyFields old incoming) = some v := by
  induction incoming with
  | nil => intro old f v _ h; exact Option.noConfusion h
  | cons kv t ih =>
    intro old f v hnd hl
    obtain ⟨k, w⟩ := kv
    simp only [List.map_cons, List.nodup_cons] at hnd
    by_cases hk : k = f
    · subst hk
      have hw : w = v := by simpa [lookupKV] using hl
      subst hw
      show lookupKV k (applyFields (setField old k w) t) = some w
      rw [lookupKV_applyFields_not_mem t (setField old k w) k hnd.1]
      exact lookupKV_setField_self old k w
    · have hl2 : lookupKV f t = some v := by simpa [lookupKV, hk] using hl
      show lookupKV f (applyFields (setField old k w) t) = some v
      exact ih (setField old k w) f v hnd.2 hl2

/-- A lookup is none exactly when the key is absent from the dict. -/
theorem lookupKV_eq_none_iff {α : Type} (f : String) (l : List (String × α)) :
    lookupKV f l = none ↔ f ∉ l.map Prod.fst := by
  induction l with
  | nil => simp [lookupKV]
  | cons kv t ih =>
    obtain ⟨k, v⟩ := kv
    by_cases hk : k = f
    · subst hk
      simp [lookupKV]
    · simp [lookupKV, hk, ih, Ne.symm hk]

/-- Every field absent from the incoming row keeps its stored value. -/
theorem lookupKV_applyFields_none {α : Type} (incoming old : List (String × α)) (f : String)
    (h : lookupKV f incoming = none) :
    lookupKV f (applyFields old incoming) = lookupKV f old :=
  lookupKV_applyFields_not_mem incoming old f ((lookupKV_eq_none_iff f incoming).mp h)

/-- Overwriting the keyed row in a store splits around the first key
match. -/
theorem updateByKey_split (kid : PyVal) (r : PyDict) :
    ∀ (pre : List PyDict) (old : PyDict) (post : List PyDict),
      (∀ x ∈ pre, lookupKV "database_id" x ≠ some kid) →
      lookupKV "database_id" old = some kid →
      updateByKey (pre ++ old :: post) kid r = pre ++ applyFields old r :: post := by
  intro pre
  induction pre with
  | nil =>
    intro old post _ hold
    simp [updateByKey, hold]
  | cons x t ih =>
    intro old post hpre hold
    have hx : lookupKV "database_id" x ≠ some kid := hpre x (List.mem_cons_self x t)
    simp only [List.cons_append, updateByKey, if_neg hx]
    exact congrArg (fun l => x :: l)
      (ih old post (fun y hy => hpre y (List.mem_cons_of_mem x hy)) hold)

/-- The first satisfying element of a split list is found. -/
theorem find?_split {α : Type} (p : α → Bool) :
    ∀ (pre : List α) (old : α) (post : List α),
      (∀ x ∈ pre, p x = false) → p old = true →
      (pre ++ old :: post).find? p = some old := by
  intro pre
  induction pre with
  | nil =>
    intro old post _ h
    simp [List.find?, h]
  | cons x t ih =>
    intro old post hpre h
    have hx := hpre x (List.mem_cons_self x t)
    simp [List.find?, hx, ih old post (fun y hy => hpre y (List.mem_cons_of_mem x hy)) h]

/-- C6: an upsert of one endpoint row into the store.  When no stored
row carries the incoming primary key, the row is inserted at the end;
when a stored row carries it, that row alone is overwritten in place,
every field provided by the incoming row takes its provided value, and
every field the incoming row does not mention keeps its stored value. -/
theorem upsert_endpoint_semantics (store : List PyDict) (r : PyDict) (kid : PyVal)
    (hkey : lookupKV "database_id" r = some kid)
    (hnd : (r.map Prod.fst).Nodup) :
    ((∀ x ∈ store, lookupKV "database_id" x ≠ some kid) →
        upsert_sql_endpoints store [r] = .ok (store ++ [r])) ∧
    (∀ pre old post, store = pre ++ old :: post →
        (∀ x ∈ pre, lookupKV "database_id" x ≠ some kid) →
        lookupKV "database_id" old = some kid →
        upsert_sql_endpoints store [r] = .ok (pre ++ applyFields old r :: post) ∧
        (∀ f v, lookupKV f r = some v → lookupKV f (applyFields old r) = some v) ∧
        (∀ f, lookupKV f r = none →
          lookupKV f (applyFields old r) = lookupKV f old)) := by
  constructor
  · intro habs
    have hf : store.find? (fun x => decide (lookupKV "database_id" x = some kid)) = none := by
      apply List.find?_eq_none.mpr
      intro x hx
      simpa using habs x hx
    simp [upsert_sql_endpoints, List.foldlM, hkey, hf]
  · intro pre old post hsplit hpre hold
    subst hsplit
    have hf : (pre ++ old :: post).find?
        (fun x => decide (lookupKV "database_id" x = some kid)) = some old := by
      apply find?_split _ pre old post
      · intro x hx
        simpa using hpre x hx
      · simpa using hold
    refine ⟨?_, ?_, ?_⟩
    · simp [upsert_sql_endpoints, List.foldlM, hkey, hf,
        updateByKey_split kid r pre old post hpre hold]
    · intro f v hv
      exact lookupKV_applyFields_some r old f v hnd hv
    · intro f hv
      exact lookupKV_applyFields_none r old f hv

/-- C6 witness: updating a stored endpoint row overwrites the provided
server field, keeps the unprovided name field, and leaves the store
otherwise unchanged. -/
theorem upsert_endpoint_semantics_witness :
    upsert_sql_endpoints
        [[("database_id", PyVal.str "db1"), ("server", PyVal.null), ("name", PyVal.str "A")]]
        [[("database_id", PyVal.str "db1"), ("server", PyVal.str "h")]]
      = .ok [[("database_id", PyVal.str "db1"), ("server", PyVal.str "h"),
              ("name", PyVal.str "A")]] := by
  have h := (upsert_endpoint_semantics
      [[("database_id", PyVal.str "db1"), ("server", PyVal.null), ("name", PyVal.str "A")]]
      [("database_id", PyVal.str "db1"), ("server", PyVal.str "h")]
      (PyVal.str "db1") (by decide) (by decide)).2
      [] [("database_id", PyVal.str "db1"), ("server", PyVal.null), ("name", PyVal.str "A")] []
      rfl (fun x hx => absurd hx (List.not_mem_nil x)) (by decide)
  rw [h.1]
  rfl

/-- Replacing a value in the best dict keeps the key sequence. -/
theorem replaceVal_map_fst (k : String × String) (r : EpRow) :
    ∀ b, (replaceVal b k r).map Prod.fst = b.map Prod.fst := by
  intro b
  induction b with
  | nil => rfl
  | cons e t ih =>
    by_cases he : e.1 = k
    · simp [replaceVal, he]
    · simp [replaceVal, he, ih]

/-- Every entry of the replaced dict is an old entry or the new pair. -/
theorem replaceVal_mem (k : String × String) (r : EpRow) :
    ∀ b e, e ∈ replaceVal b k r → e ∈ b ∨ e = (k, r) := by
  intro b
  induction b with
  | nil => intro e he; exact absurd he (List.not_mem_nil e)
  | cons x t ih =>
    intro e he
    by_cases hx : x.1 = k
    · rw [replaceVal, if_pos hx] at he
      rcases List.mem_cons.mp he with h | h
      · right; exact h
      · left; exact List.mem_cons_of_mem x h
    · rw [replaceVal, if_neg hx] at he
      rcases List.mem_cons.mp he with h | h
      · left; exact h ▸ List.mem_cons_self x t
      · rcases ih e h with h2 | h2
        · left; exact List.mem_cons_of_mem x h2
        · right; exact h2

/-- One deduplication step preserves well-formedness of the best dict. -/
theorem WFbest_dedupeStep (b : List ((String × String) × EpRow)) (r : EpRow)
    (h : WFbest b) : WFbest (dedupeStep b r) := by
  obtain ⟨hnd, hval⟩ := h
  cases hf : b.find? (fun e => decide (e.1 = epKey r)) with
  | none =>
    have hnotin : epKey r ∉ b.map Prod.fst := by
      intro hmem
      obtain ⟨e, hemem, heq⟩ := List.mem_map.mp hmem
      have := List.find?_eq_none.mp hf e hemem
      simp [heq] at this
    constructor
    · rw [show dedupeStep b r = b ++ [(epKey r, r)] by simp [dedupeStep, hf]]
      rw [List.map_append]
      rw [List.nodup_append]
      refine ⟨hnd, List.nodup_singleton _, ?_⟩
      intro x hx hx2
      simp at hx2
      subst hx2
      exact hnotin hx
    · intro e he
      rw [show dedupeStep b r = b ++ [(epKey r, r)] by simp [dedupeStep, hf]] at he
      rcases List.mem_append.mp he with h2 | h2
      · exact hval e h2
      · have : e = (epKey r, r) := by simpa using h2
        subst this
        rfl
  | some cur =>
    rw [show dedupeStep b r
        = if scoreGT (epScore r) (epScore cur.2) then replaceVal b (epKey r) r else b by
      simp [dedupeStep, hf]]
    by_cases hgt : scoreGT (epScore r) (epScore cur.2) = true
    · rw [if_pos hgt]
      constructor
      · rw [replaceVal_map_fst]
        exact hnd
      · intro e he
        rcases replaceVal_mem (epKey r) r b e he with h2 | h2
        · exact hval e h2
        · subst h2
          rfl
    · rw [if_neg hgt]
      exact ⟨hnd, hval⟩

/-- Finding in an appended list looks left first. -/
theorem find?_append_eq {α : Type} (p : α → Bool) :
    ∀ (l1 l2 : List α), (l1 ++ l2).find? p
      = match l1.find? p with
        | some a => some a
        | none => l2.find? p := by
  intro l1 l2
  induction l1 with
  | nil => rfl
  | cons a t ih =>
    by_cases ha : p a = true
    · simp [List.find?_cons, ha]
    · simp only [Bool.not_eq_true] at ha
      simp [List.find?_cons, ha, ih]

/-- Replacing the held value at a key makes the new pair the found entry
for that key. -/
theorem find?_replaceVal_same (k : String × String) (r : EpRow) :
    ∀ b cur, b.find? (fun e => decide (e.1 = k)) = some cur →
      (replaceVal b k r).find? (fun e => decide (e.1 = k)) = some (k, r) := by
  intro b
  induction b with
  | nil => intro cur h; exact Option.noConfusion h
  | cons e t ih =>
    intro cur h
    by_cases he : e.1 = k
    · rw [replaceVal, if_pos he]
      simp [List.find?_cons]
    · rw [replaceVal, if_neg he]
      have h2 : t.find? (fun e => decide (e.1 = k)) = some cur := by
        simpa [List.find?_cons, he] using h
      simp [List.find?_cons, he, ih cur h2]

/-- Replacing the held value at one key does not change what is found at
another key. -/
theorem find?_replaceVal_other (k k2 : String × String) (r : EpRow) (hkk : k2 ≠ k) :
    ∀ b, (replaceVal b k r).find? (fun e => decide (e.1 = k2))
      = b.find? (fun e => decide (e.1 = k2)) := by
  intro b
  induction b with
  | nil => rfl
  | cons e t ih =>
    by_cases he : e.1 = k
    · rw [replaceVal, if_pos he]
      simp [List.find?_cons, Ne.symm hkk, he]
    · rw [replaceVal, if_neg he]
      by_cases he2 : e.1 = k2
      · simp [List.find?_cons, he2]
      · simp [List.find?_cons, he2, ih]

/-- The value at a key after one deduplication step: the key of the new
row evolves by the specification step, other keys are untouched. -/
theorem valAt_dedupeStep (b : List ((String × String) × EpRow)) (r : EpRow)
    (k : String × String) :
    valAt (dedupeStep b r) k
      = if epKey r = k then specStep (valAt b k) r else valAt b k := by
  cases hf : b.find? (fun e => decide (e.1 = epKey r)) with
  | none =>
    rw [show dedupeStep b r = b ++ [(epKey r, r)] by simp [dedupeStep, hf]]
    by_cases hk : epKey r = k
    · subst hk
      rw [if_pos rfl]
      rw [valAt, find?_append_eq, hf]
      simp [List.find?_cons, valAt, hf, specStep]
    · rw [if_neg hk]
      rw [valAt, find?_append_eq]
      cases hfk : b.find? (fun e => decide (e.1 = k)) with
      | none => simp [List.find?_cons, hk, valAt, hfk]
      | some a => simp [valAt, hfk]
  | some cur =>
    rw [show dedupeStep b r
        = if scoreGT (epScore r) (epScore cur.2) then replaceVal b (epKey r) r else b by
      simp [dedupeStep, hf]]
    by_cases hk : epKey r = k
    · subst hk
      rw [if_pos rfl]
      rw [show valAt b (epKey r) = some cur.2 by simp [valAt, hf]]
      by_cases hgt : scoreGT (epScore r) (epScore cur.2) = true
      · rw [if_pos hgt]
        rw [valAt, find?_replaceVal_same (epKey r) r b cur hf]
        simp [specStep, hgt]
      · rw [if_neg hgt]
        simp only [Bool.not_eq_true] at hgt
        simp [specStep, hgt, valAt, hf]
    · rw [if_neg hk]
      by_cases hgt : scoreGT (epScore r) (epScore cur.2) = true
      · rw [if_pos hgt]
        rw [valAt, find?_replaceVal_other (epKey r) k r (fun h => hk h.symm) b]
        rfl
      · rw [if_neg hgt]

/-- The value at a key after folding all rows equals the specification
fold over the rows of that key. -/
theorem valAt_fold (k : String × String) :
    ∀ (rows : List EpRow) (b : List ((String × String) × EpRow)),
      valAt (rows.foldl dedupeStep b) k
        = (rows.filter (fun r => decide (epKey r = k))).foldl specStep (valAt b k) := by
  intro rows
  induction rows with
  | nil => intro b; rfl
  | cons r t ih =>
    intro b
    show valAt (t.foldl dedupeStep (dedupeStep b r)) k = _
    rw [ih (dedupeStep b r), valAt_dedupeStep b r k]
    by_cases hk : epKey r = k
    · simp [List.filter_cons, hk]
    · simp [List.filter_cons, hk]

/-- Folding all rows preserves well-formedness. -/
theorem WFbest_fold :
    ∀ (rows : List EpRow) (b : List ((String × String) × EpRow)),
      WFbest b → WFbest (rows.foldl dedupeStep b) := by
  intro rows
  induction rows with
  | nil => intro b h; exact h
  | cons r t ih =>
    intro b h
    exact ih (dedupeStep b r) (WFbest_dedupeStep b r h)

/-- Filtering the dict values by a key isolates the value held at that
key, for a well-formed dict. -/
theorem filter_map_snd (k : String × String) :
    ∀ (B : List ((String × String) × EpRow)), WFbest B →
      (B.map Prod.snd).filter (fun r => decide (epKey r = k)) = (valAt B k).toList := by
  intro B
  induction B with
  | nil => intro _; rfl
  | cons e t ih =>
    intro hwf
    obtain ⟨hnd, hval⟩ := hwf
    rw [List.map_cons, List.nodup_cons] at hnd
    have hek : epKey e.2 = e.1 := hval e (List.mem_cons_self e t)
    by_cases he : e.1 = k
    · have htail : (t.map Prod.snd).filter (fun r => decide (epKey r = k)) = [] := by
        apply List.filter_eq_nil_iff.mpr
        intro a ha
        obtain ⟨x, hxmem, hxa⟩ := List.mem_map.mp ha
        have hx1 : epKey x.2 = x.1 := hval x (List.mem_cons_of_mem e hxmem)
        have hxk : x.1 ≠ k := by
          intro hkk
          have hmem : x.1 ∈ List.map Prod.fst t := List.mem_map_of_mem Prod.fst hxmem
          rw [hkk, ← he] at hmem
          exact hnd.1 hmem
        simp [← hxa, hx1, hxk]
      simp [List.filter_cons, hek, he, htail, valAt, List.find?_cons]
    · have hek2 : epKey e.2 ≠ k := by rw [hek]; exact he
      have ht := ih ⟨hnd.2, fun x hx => hval x (List.mem_cons_of_mem e hx)⟩
      simp [List.filter_cons, hek2, valAt, List.find?_cons, he, ht]

/-- C7: deduplication keeps exactly one row per effective kind and name
key, namely the first-seen row among those with the lexicographically
maximal score, as the specification fold describes; and on the spec
example the row with the non-null server wins. -/
theorem dedupe_keeps_best :
    (∀ (rows : List EpRow) (k : String × String),
        (dedupe_prefer_connected rows).filter (fun r => decide (epKey r = k))
          = (specBest (rows.filter (fun r => decide (epKey r = k)))).toList) ∧
    dedupe_prefer_connected
        [⟨some "Warehouse", some "Sales", none, none, "id1"⟩,
         ⟨some "Warehouse", some "Sales", some "h", none, "id2"⟩]
      = [⟨some "Warehouse", some "Sales", some "h", none, "id2"⟩] := by
  constructor
  · intro rows k
    have hwf0 : WFbest [] := ⟨List.nodup_nil, fun e he => absurd he (List.not_mem_nil e)⟩
    have hwf := WFbest_fold rows [] hwf0
    show ((rows.foldl dedupeStep []).map Prod.snd).filter _ = _
    rw [filter_map_snd k _ hwf, valAt_fold k rows []]
    rfl
  · decide

/-- Cross-multiplication order on ratios is reflexive. -/
theorem ratioLE_refl (a : Ratio) : ratioLE a a := le_refl _

/-- Cross-multiplication order on ratios is transitive through a ratio
with positive denominator. -/
theorem ratioLE_trans (a b c : Ratio) (hb : 0 < b.den)
    (h1 : ratioLE a b) (h2 : ratioLE b c) : ratioLE a c := by
  unfold ratioLE at *
  have h1c := Nat.mul_le_mul_right c.den h1
  have h2a := Nat.mul_le_mul_right a.den h2
  have key : a.num * c.den * b.den ≤ c.num * a.den * b.den := by
    calc a.num * c.den * b.den = a.num * b.den * c.den := by ring
      _ ≤ b.num * a.den * c.den := h1c
      _ = b.num * c.den * a.den := by ring
      _ ≤ c.num * b.den * a.den := h2a
      _ = c.num * a.den * b.den := by ring
  exact Nat.le_of_mul_le_mul_right key hb

/-- Strict cross-multiplication order implies the weak one. -/
theorem ratioLT_le (a b : Ratio) (h : ratioLT a b) : ratioLE a b := Nat.le_of_lt h

/-- Cross-multiplication equality implies the weak order. -/
theorem ratioEQ_le (a b : Ratio) (h : ratioEQ a b) : ratioLE a b := Nat.le_of_eq h

/-- A ratio cannot be both at least and strictly below another. -/
theorem ratioLE_LT_absurd (a b : Ratio) (h1 : ratioLE a b) (h2 : ratioLT b a) : False :=
  Nat.lt_irrefl _ (Nat.lt_of_le_of_lt h1 h2)

/-- The denominator produced by the ratio formula is positive. -/
theorem calcRatio_den_pos (m len : Nat) : 0 < (calcRatio m len).den := by
  unfold calcRatio
  split
  · exact Nat.one_pos
  next h => exact Nat.pos_of_ne_zero h

/-- The similarity ratio has a positive denominator. -/
theorem ratioQ_den_pos (a b : String) : 0 < (ratioQ a b).den :=
  calcRatio_den_pos _ _

/-- The pairwise maximum is one of its arguments. -/
theorem pairMax_cases (p q : Ratio × String) : pairMax p q = p ∨ pairMax p q = q := by
  unfold pairMax
  split
  · right; rfl
  · left; rfl

/-- The fold of the pairwise maximum stays within the seed and the
list. -/
theorem foldl_pairMax_mem :
    ∀ (t : List (Ratio × String)) (q : Ratio × String),
      t.foldl pairMax q = q ∨ t.foldl pairMax q ∈ t := by
  intro t
  induction t with
  | nil => intro q; left; rfl
  | cons x t ih =>
    intro q
    rcases ih (pairMax q x) with h | h
    · rcases pairMax_cases q x with h2 | h2
      · left
        show t.foldl pairMax (pairMax q x) = q
        rw [h, h2]
      · right
        show t.foldl pairMax (pairMax q x) ∈ x :: t
        rw [h, h2]
        exact List.mem_cons_self x t
    · right
      exact List.mem_cons_of_mem x h

/-- The found maximum is a member of the list. -/
theorem maxScored_mem (l : List (Ratio × String)) (p : Ratio × String)
    (h : maxScored l = some p) : p ∈ l := by
  cases l with
  | nil => exact Option.noConfusion h
  | cons q t =>
    have hp : t.foldl pairMax q = p := Option.some.inj h
    rcases foldl_pairMax_mem t q with h2 | h2
    · rw [hp] at h2
      exact h2 ▸ List.mem_cons_self q t
    · rw [hp] at h2
      exact List.mem_cons_of_mem q h2

/-- The ratio component never decreases through the pairwise maximum. -/
theorem pairMax_fst_left (p q : Ratio × String) : ratioLE p.1 (pairMax p q).1 := by
  unfold pairMax
  split
  next h =>
    rcases h with h | h
    · exact ratioLT_le _ _ h
    · exact ratioEQ_le _ _ h.1
  next => exact ratioLE_refl _

/-- Neither does the second argument's ratio component. -/
theorem pairMax_fst_right (p q : Ratio × String) : ratioLE q.1 (pairMax p q).1 := by
  unfold pairMax
  split
  next => exact ratioLE_refl _
  next h =>
    push_neg at h
    exact Nat.not_lt.mp h.1

/-- The fold of the pairwise maximum dominates the seed and every list
element in the ratio component, for ratios with positive denominators. -/
theorem foldl_pairMax_ge :
    ∀ (t : List (Ratio × String)) (q : Ratio × String),
      0 < q.1.den → (∀ u ∈ t, 0 < u.1.den) →
      ratioLE q.1 (t.foldl pairMax q).1 ∧ ∀ u ∈ t, ratioLE u.1 (t.foldl pairMax q).1 := by
  intro t
  induction t with
  | nil =>
    intro q _ _
    exact ⟨ratioLE_refl _, fun u hu => absurd hu (List.not_mem_nil u)⟩
  | cons x t ih =>
    intro q hq ht
    have hx : 0 < x.1.den := ht x (List.mem_cons_self x t)
    have hpm : 0 < (pairMax q x).1.den := by
      rcases pairMax_cases q x with h | h
      · rw [h]; exact hq
      · rw [h]; exact hx
    obtain ⟨h1, h2⟩ := ih (pairMax q x) hpm (fun u hu => ht u (List.mem_cons_of_mem x hu))
    refine ⟨ratioLE_trans _ _ _ hpm (pairMax_fst_left q x) h1, ?_⟩
    intro u hu
    rcases List.mem_cons.mp hu with h | h
    · subst h
      exact ratioLE_trans _ _ _ hpm (pairMax_fst_right q u) h1
    · exact h2 u h

/-- The found maximum dominates every list element in the ratio
component. -/
theorem maxScored_ge (l : List (Ratio × String)) (p : Ratio × String)
    (h : maxScored l = some p) (hpos : ∀ q ∈ l, 0 < q.1.den) :
    ∀ q ∈ l, ratioLE q.1 p.1 := by
  cases l with
  | nil => intro q hq; exact absurd hq (List.not_mem_nil q)
  | cons a t =>
    have hp : t.foldl pairMax a = p := Option.some.inj h
    have ha : 0 < a.1.den := hpos a (List.mem_cons_self a t)
    have ht : ∀ u ∈ t, 0 < u.1.den := fun u hu => hpos u (List.mem_cons_of_mem a hu)
    intro q hq
    rcases List.mem_cons.mp hq with h2 | h2
    · subst h2
      exact hp ▸ (foldl_pairMax_ge t q ha ht).1
    · exact hp ▸ (foldl_pairMax_ge t a ha ht).2 q h2

/-- A nonempty result of the top-one close-match selection is a
gate-passing possibility whose ratio dominates every gate-passing
possibility. -/
theorem get_close_matches1_eq_cons (word : String) (poss : List String) (cutoff : Ratio)
    (m : String) (rest : List String)
    (h : get_close_matches1 word poss cutoff = m :: rest) :
    m ∈ poss ∧ passesGates word m cutoff = true ∧
      ∀ x ∈ poss, passesGates word x cutoff = true →
        ratioLE (ratioQ x word) (ratioQ m word) := by
  rw [get_close_matches1] at h
  have hpos : ∀ q ∈ poss.filterMap (fun x =>
      if passesGates word x cutoff then some (ratioQ x word, x) else none), 0 < q.1.den := by
    intro q hq
    obtain ⟨x, _, hx⟩ := List.mem_filterMap.mp hq
    by_cases hg : passesGates word x cutoff = true
    · rw [if_pos hg] at hx
      rw [← Option.some.inj hx]
      exact ratioQ_den_pos x word
    · rw [if_neg hg] at hx
      exact Option.noConfusion hx
  cases hms : maxScored (poss.filterMap fun x =>
      if passesGates word x cutoff then some (ratioQ x word, x) else none) with
  | none =>
    rw [hms] at h
    exact List.noConfusion h
  | some p =>
    rw [hms] at h
    injection h with h1 _
    subst h1
    have hpmem := maxScored_mem _ p hms
    obtain ⟨x, hxmem, hx⟩ := List.mem_filterMap.mp hpmem
    by_cases hg : passesGates word x cutoff = true
    · rw [if_pos hg] at hx
      have hpx : p = (ratioQ x word, x) := (Option.some.inj hx).symm
      have hx2 : x = p.2 := by rw [hpx]
      refine ⟨hx2 ▸ hxmem, hx2 ▸ hg, ?_⟩
      intro y hy hgy
      have hymem : (ratioQ y word, y) ∈ poss.filterMap fun x2 =>
          if passesGates word x2 cutoff then some (ratioQ x2 word, x2) else none :=
        List.mem_filterMap.mpr ⟨y, hy, by rw [if_pos hgy]⟩
      have hle := maxScored_ge _ p hms hpos (ratioQ y word, y) hymem
      have hfst : p.1 = ratioQ p.2 word := by rw [hpx]
      rw [← hfst]
      exact hle
    · rw [if_neg hg] at hx
      exact Option.noConfusion hx

/-- C8: fuzzy matching returns a candidate only when the similarity
ratio of its normalization against the normalized query reaches the
cutoff of four fifths, and the returned candidate dominates every
gate-passing candidate in ratio (top-one selection); when every
candidate's ratio is below the cutoff the result is null, never a forced
guess; and on the spec example list, sales analytic resolves to Sales
Analytics while xyz resolves to null. -/
theorem best_match_cutoff :
    (∀ (name : String) (candidates : List String) (c : String),
        best_match name candidates = some c →
        c ∈ candidates ∧ ratioLE ⟨4, 5⟩ (ratioQ (pyNorm c) (pyNorm name)) ∧
          ∀ x ∈ candidates, passesGates (pyNorm name) (pyNorm x) ⟨4, 5⟩ = true →
            ratioLE (ratioQ (pyNorm x) (pyNorm name)) (ratioQ (pyNorm c) (pyNorm name))) ∧
    (∀ (name : String) (candidates : List String),
        (∀ x ∈ candidates, ratioLT (ratioQ (pyNorm x) (pyNorm name)) ⟨4, 5⟩) →
        best_match name candidates = none) ∧
    best_match "sales analytic" ["Sales Analytics", "Marketing"] = some "Sales Analytics" ∧
    best_match "xyz" ["Sales Analytics", "Marketing"] = none := by
  refine ⟨?_, ?_, by decide, by decide⟩
  · intro name candidates c h
    by_cases h0 : name = "" ∨ candidates = []
    · rw [best_match, if_pos h0] at h
      exact Option.noConfusion h
    · rw [best_match, if_neg h0] at h
      cases hm : get_close_matches1 (pyNorm name) (candidates.map pyNorm) ⟨4, 5⟩ with
      | nil =>
        rw [hm] at h
        exact Option.noConfusion h
      | cons m rest =>
        rw [hm] at h
        have hc_mem : c ∈ candidates := List.mem_of_find?_eq_some h
        have hc_norm : pyNorm c = m := by simpa using List.find?_some h
        obtain ⟨_, hg, hmax⟩ :=
          get_close_matches1_eq_cons (pyNorm name) (candidates.map pyNorm) ⟨4, 5⟩ m rest hm
        have hrat : ratioLE ⟨4, 5⟩ (ratioQ m (pyNorm name)) := by
          simp only [passesGates, Bool.and_eq_true, decide_eq_true_eq] at hg
          exact hg.2
        refine ⟨hc_mem, hc_norm ▸ hrat, ?_⟩
        intro x hx hgx
        have hy := hmax (pyNorm x) (List.mem_map_of_mem pyNorm hx) hgx
        rw [hc_norm]
        exact hy
  · intro name candidates hlt
    by_cases h0 : name = "" ∨ candidates = []
    · rw [best_match, if_pos h0]
    · rw [best_match, if_neg h0]
      have hsc : (candidates.map pyNorm).filterMap (fun x =>
          if passesGates (pyNorm name) x ⟨4, 5⟩
          then some (ratioQ x (pyNorm name), x) else none) = [] := by
        apply List.filterMap_eq_nil_iff.mpr
        intro x hx
        obtain ⟨y, hy, rfl⟩ := List.mem_map.mp hx
        rw [if_neg]
        intro hg
        simp only [passesGates, Bool.and_eq_true, decide_eq_true_eq] at hg
        exact ratioLE_LT_absurd _ _ hg.2 (hlt y hy)
      simp [get_close_matches1, hsc, maxScored]

/-- C8 witness: every candidate ratio against xyz is below the cutoff,
so the resolver returns null by the cutoff theorem. -/
theorem best_match_cutoff_witness :
    best_match "xyz" ["Sales Analytics", "Marketing"] = none :=
  best_match_cutoff.2.1 "xyz" ["Sales Analytics", "Marketing"] (by decide)
